import Mathlib

/-!
Shallow embedding of `src/app/paint-optimizer.js` (paint-optimizer).

Strings are modelled as `List Char`; JS `undefined` results are modelled
with `Option`.  A `Map` is modelled by its insertion-ordered list of
key/value pairs, since every loop in the source iterates a `Map` in
insertion order.  The stable JS `Array.prototype.sort` is modelled by
insertion sort, which is stable.
-/

namespace PaintOptimizer

/-- An assignment: one character per color, `'0'` (cheap) or `'1'` (expensive). -/
abbrev Assignment := List Char

/-- One client's requirements: the insertion-ordered entries of the JS
`Map<number, string>` mapping column index to requested type.  Column
indices are `Int` because the parser computes `parseInt(colorID, 10) - 1`,
which may be negative. -/
abbrev ClientRequirement := List (Int × Char)

/-- All clients' requirements: the insertion-ordered entries of the JS
`Map<number, Map<number, string>>`. -/
abbrev RequirementSet := List (Nat × ClientRequirement)

/-- `characterCount` from the source: number of times `characterToCount`
occurs in `string` (a counting loop over the characters). -/
def characterCount : List Char → Char → Nat
  | [], _ => 0
  | c :: rest, characterToCount =>
      (if c = characterToCount then 1 else 0) + characterCount rest characterToCount

/-- `createPossibleSolutions` from the source: the array `[0, 1, …, 2^colors - 1]`. -/
def createPossibleSolutions (colors : Nat) : List Nat :=
  List.range (2 ^ colors)

/-- Fuel-driven core of the binary encoder: most-significant-first base-2
digits of `n` (empty for `n = 0`).  The fuel only makes the recursion
structural; it is irrelevant once `n ≤ fuel`. -/
def binDigitsCore : Nat → Nat → List Char
  | _, 0 => []
  | 0, _ + 1 => []
  | fuel + 1, n + 1 =>
      binDigitsCore fuel ((n + 1) / 2) ++ [if (n + 1) % 2 = 1 then '1' else '0']

/-- `convertDecimalSolutionToBinary` from the source: JS
`Number.prototype.toString.call(k, 2)`, the standard base-2 digit string of
`k` with no leading zeros (`0 → "0"`). -/
def convertDecimalSolutionToBinary (k : Nat) : List Char :=
  if k = 0 then ['0'] else binDigitsCore k k

/-- `sortPossibleSolutions` from the source: the comparator
`characterCount(first, c) - characterCount(second, c)` (a JS number,
modelled as `Int`). -/
def sortPossibleSolutions (characterToSortBy : Char) (first second : List Char) : Int :=
  (characterCount first characterToSortBy : Int) - (characterCount second characterToSortBy : Int)

/-- JS `Array.prototype.sort` with a comparator `cmp`: a stable sort that
puts `a` before `b` when `cmp a b ≤ 0`, modelled by insertion sort (stable). -/
def jsSort (cmp : List Char → List Char → Int) (l : List (List Char)) : List (List Char) :=
  List.insertionSort (fun a b => cmp a b ≤ 0) l

/-- `padPossibleSolution` from the source: left-pad with `paddingCharacter`
up to `requiredLength`; longer inputs are returned unchanged. -/
def padPossibleSolution (requiredLength : Nat) (paddingCharacter : Char)
    (possibleSolution : List Char) : List Char :=
  if possibleSolution.length < requiredLength then
    List.replicate (requiredLength - possibleSolution.length) paddingCharacter ++ possibleSolution
  else
    possibleSolution

/-- JS string indexing `s[i]`: the character at `i` when `0 ≤ i < s.length`,
otherwise `undefined` (modelled as `none`). -/
def stringCharAt (s : List Char) (i : Int) : Option Char :=
  if 0 ≤ i then s.get? i.toNat else none

/-- `areRequirementsSatisfied` from the source: true as soon as one
requirement pair's requested type equals the solution's character at the
pair's column index (early-return loop). -/
def areRequirementsSatisfied (possibleSolution : List Char) :
    ClientRequirement → Bool
  | [] => false
  | (columnIndex, requestedType) :: rest =>
      if stringCharAt possibleSolution columnIndex = some requestedType then true
      else areRequirementsSatisfied possibleSolution rest

/-- `doesSolutionSatisfyAllClients` from the source: false as soon as one
client's requirements are unsatisfied (early-return loop over the map's
values; keys are ignored). -/
def doesSolutionSatisfyAllClients (allRequirements : RequirementSet)
    (possibleSolution : List Char) : Bool :=
  match allRequirements with
  | [] => true
  | (_, clientRequirements) :: rest =>
      if areRequirementsSatisfied possibleSolution clientRequirements = false then false
      else doesSolutionSatisfyAllClients rest possibleSolution

/-- The list scanned by `findCheapestSolution`: enumerate, binary-encode,
stable-sort ascending by count of `'1'`, left-pad to width `colors` with `'0'`. -/
def scanList (colors : Nat) : List (List Char) :=
  (jsSort (sortPossibleSolutions '1')
      ((createPossibleSolutions colors).map convertDecimalSolutionToBinary)).map
    (padPossibleSolution colors '0')

/-- `findCheapestSolution` from the source: the first element of the scanned
list satisfying all clients, `undefined` (`none`) if there is none. -/
def findCheapestSolution (colors : Nat) (allRequirements : RequirementSet) :
    Option (List Char) :=
  (scanList colors).find? (doesSolutionSatisfyAllClients allRequirements)

/-- Parsing a digit string back as base 2, most significant digit first
(the spec's `parseBinary`). -/
def parseBinary (s : List Char) : Nat :=
  s.foldl (fun acc c => 2 * acc + (if c = '1' then 1 else 0)) 0

/-- The formatting step of `optimizer` (its body after the search): an
absent solution renders as `"No solution exists"`; otherwise each character
is decoded (`'0' → 'G'`, otherwise `'M'`) and appended with a trailing space. -/
def optimizerFormat : Option (List Char) → List Char
  | none => "No solution exists".toList
  | some cheapestSolution =>
      cheapestSolution.foldl
        (fun transformedSolution encodedColor =>
          transformedSolution ++ [if encodedColor = '0' then 'G' else 'M', ' ']) []

/-- The full candidate space of `findCheapestSolution`: every integer below
`2^n`, binary-encoded and left-padded to width `n` (the scanned list before
the cost sort reorders it). -/
def allAssignments (n : Nat) : List (List Char) :=
  (createPossibleSolutions n).map fun k =>
    padPossibleSolution n '0' (convertDecimalSolutionToBinary k)

/-- JS `Map.prototype.set` on an insertion-ordered association list: update
in place when the key is present, else append.  Keys are `Option Int`,
with `none` modelling `NaN` (which JS Maps treat as equal to itself). -/
def jsMapSet (m : List (Option Int × Char)) (k : Option Int) (v : Char) :
    List (Option Int × Char) :=
  if m.any (fun p => decide (p.1 = k)) then
    m.map (fun p => if p.1 = k then (k, v) else p)
  else m ++ [(k, v)]

/-- The digit run consumed by JS `parseInt`: the longest leading run of
decimal digits, `none` (`NaN`) when it is empty. -/
def parseDecDigits (s : List Char) : Option Nat :=
  let ds := s.takeWhile (fun c => c.isDigit)
  if ds.isEmpty then none
  else some (ds.foldl (fun acc c => 10 * acc + (c.toNat - '0'.toNat)) 0)

/-- JS `parseInt(s, 10)`: skip leading whitespace, read an optional sign and
then decimal digits; `NaN` is modelled as `none`. -/
def jsParseInt (s : List Char) : Option Int :=
  match s.dropWhile (fun c => c.isWhitespace) with
  | '-' :: rest => (parseDecDigits rest).map (fun d => -(d : Int))
  | '+' :: rest => (parseDecDigits rest).map (fun d => (d : Int))
  | rest => (parseDecDigits rest).map (fun d => (d : Int))

/-- JS `line.split(/\s/)`: split at every single whitespace character,
keeping empty fragments. -/
def splitWS : List Char → List (List Char)
  | [] => [[]]
  | c :: rest =>
      if c.isWhitespace then [] :: splitWS rest
      else
        match splitWS rest with
        | [] => [[c]]
        | t :: ts => (c :: t) :: ts

/-- The pairs scanned by the loop in `parseFileInputLine`: tokens consumed
two at a time; a missing second token is JS `undefined`, which is not
`"G"` and therefore maps to `'1'`; the column is `parseInt(colorID) - 1`. -/
def parseLinePairs : List (List Char) → List (Option Int × Char)
  | [] => []
  | [colorID] => [((jsParseInt colorID).map (fun i => i - 1), '1')]
  | colorID :: colorType :: rest =>
      ((jsParseInt colorID).map (fun i => i - 1),
        if colorType = ['G'] then '0' else '1') :: parseLinePairs rest

/-- `parseFileInputLine` from the source: split the line at whitespace and
insert each scanned pair into a fresh JS Map. -/
def parseFileInputLine (line : List Char) : List (Option Int × Char) :=
  (parseLinePairs (splitWS line)).foldl (fun m kv => jsMapSet m kv.1 kv.2) []

/-- `parseFileInput` from the source, with the mutation of `fileLines` made
explicit: the returned second component is the post-call contents of the
caller's array.  `fileLines.shift()` removes and returns the first element
(or returns `undefined` and leaves an empty array unchanged); `parseInt` of
`undefined` is `NaN` (`none`).  Each remaining line is parsed and keyed by
the map's current size, i.e. by its position. -/
def parseFileInput (fileLines : List (List Char)) :
    (Option Int × List (Nat × List (Option Int × Char))) × List (List Char) :=
  let colors : Option Int :=
    match fileLines.head? with
    | some first => jsParseInt first
    | none => none
  let rest := fileLines.tail
  ((colors, (rest.map parseFileInputLine).enum), rest)

/-! ### Counting and padding lemmas -/

theorem characterCount_append (s t : List Char) (c : Char) :
    characterCount (s ++ t) c = characterCount s c + characterCount t c := by
  induction s with
  | nil => simp [characterCount]
  | cons x xs ih => simp [characterCount, ih]; omega

theorem characterCount_replicate_of_ne (n : Nat) (p c : Char) (h : p ≠ c) :
    characterCount (List.replicate n p) c = 0 := by
  induction n with
  | zero => rfl
  | succ m ih => simp [List.replicate_succ, characterCount, h, ih]

theorem characterCount_pad (n : Nat) (s : List Char) :
    characterCount (padPossibleSolution n '0' s) '1' = characterCount s '1' := by
  unfold padPossibleSolution
  split
  · rw [characterCount_append,
      characterCount_replicate_of_ne _ _ _ (by decide)]
    omega
  · rfl

theorem padPossibleSolution_length (n : Nat) (c : Char) (s : List Char) :
    (padPossibleSolution n c s).length = max n s.length := by
  unfold padPossibleSolution
  split <;> simp <;> omega

theorem padPossibleSolution_mem (n : Nat) (c : Char) (s : List Char) (x : Char)
    (hx : x ∈ padPossibleSolution n c s) : x = c ∨ x ∈ s := by
  unfold padPossibleSolution at hx
  split at hx
  · rcases List.mem_append.mp hx with h | h
    · exact Or.inl (List.eq_of_mem_replicate h)
    · exact Or.inr h
  · exact Or.inr hx

/-! ### Comparator and sorting lemmas -/

theorem sortPossibleSolutions_nonpos (c : Char) (a b : List Char) :
    sortPossibleSolutions c a b ≤ 0 ↔ characterCount a c ≤ characterCount b c := by
  unfold sortPossibleSolutions
  omega

theorem jsSort_perm (cmp : List Char → List Char → Int) (l : List (List Char)) :
    (jsSort cmp l).Perm l :=
  List.perm_insertionSort _ l

theorem jsSort_sorted (c : Char) (l : List (List Char)) :
    (jsSort (sortPossibleSolutions c) l).Pairwise
      (fun a b => characterCount a c ≤ characterCount b c) := by
  haveI ht : IsTotal (List Char) (fun a b => sortPossibleSolutions c a b ≤ 0) :=
    ⟨fun a b => by
      rw [sortPossibleSolutions_nonpos, sortPossibleSolutions_nonpos]; omega⟩
  haveI htr : IsTrans (List Char) (fun a b => sortPossibleSolutions c a b ≤ 0) :=
    ⟨fun a b d h1 h2 => by
      rw [sortPossibleSolutions_nonpos] at h1 h2 ⊢; omega⟩
  exact (List.sorted_insertionSort _ l).imp
    (fun hab => (sortPossibleSolutions_nonpos c _ _).mp hab)

theorem filter_orderedInsert (c : Char) (k : Nat) (a : List Char)
    (l : List (List Char)) :
    (List.orderedInsert (fun x y => sortPossibleSolutions c x y ≤ 0) a l).filter
        (fun s => characterCount s c == k) =
      if characterCount a c = k
      then a :: l.filter (fun s => characterCount s c == k)
      else l.filter (fun s => characterCount s c == k) := by
  induction l with
  | nil =>
      simp only [List.orderedInsert_nil, List.filter_cons, List.filter_nil]
      by_cases hak : characterCount a c = k <;> simp [hak]
  | cons b t ih =>
      by_cases hab : sortPossibleSolutions c a b ≤ 0
      · simp only [List.orderedInsert, if_pos hab]
        by_cases hak : characterCount a c = k <;>
          simp [List.filter_cons, hak]
      · have hba : characterCount b c < characterCount a c := by
          rw [sortPossibleSolutions_nonpos] at hab; omega
        simp only [List.orderedInsert, if_neg hab]
        rw [List.filter_cons, ih]
        by_cases hak : characterCount a c = k
        · have hbk : ¬ characterCount b c = k := by omega
          simp [List.filter_cons, hak, hbk]
        · by_cases hbk : characterCount b c = k <;>
            simp [List.filter_cons, hak, hbk]

theorem jsSort_filter (c : Char) (k : Nat) (l : List (List Char)) :
    (jsSort (sortPossibleSolutions c) l).filter (fun s => characterCount s c == k) =
      l.filter (fun s => characterCount s c == k) := by
  induction l with
  | nil => rfl
  | cons a t ih =>
      simp only [jsSort] at ih ⊢
      show (List.orderedInsert _ a (List.insertionSort _ t)).filter _ = _
      rw [filter_orderedInsert, List.filter_cons]
      by_cases hak : characterCount a c = k <;> simp [hak, ih]

/-! ### First match of a cost-sorted scan is cost-minimal -/

theorem find?_min_of_sorted {α : Type} (f : α → Nat) (p : α → Bool) :
    ∀ l : List α, l.Pairwise (fun a b => f a ≤ f b) →
      ∀ a, l.find? p = some a → ∀ s ∈ l, p s = true → f a ≤ f s := by
  intro l
  induction l with
  | nil => intro _ a ha; simp [List.find?] at ha
  | cons x t ih =>
      intro hp a ha s hs hps
      rw [List.pairwise_cons] at hp
      by_cases hpx : p x
      · have hax : a = x := by
          rw [List.find?_cons_of_pos _ hpx] at ha
          exact (Option.some_inj.mp ha).symm
        subst hax
        rcases List.mem_cons.mp hs with rfl | hmem
        · exact le_refl _
        · exact hp.1 s hmem
      · rw [List.find?_cons_of_neg _ hpx] at ha
        rcases List.mem_cons.mp hs with rfl | hmem
        · exact absurd hps (by simpa using hpx)
        · exact ih hp.2 a ha s hmem hps

/-! ### Satisfiability characterizations -/

theorem areRequirementsSatisfied_iff (s : List Char) (reqs : ClientRequirement) :
    areRequirementsSatisfied s reqs = true ↔
      ∃ p ∈ reqs, stringCharAt s p.1 = some p.2 := by
  induction reqs with
  | nil => simp [areRequirementsSatisfied]
  | cons q t ih =>
      obtain ⟨ci, rt⟩ := q
      by_cases h : stringCharAt s ci = some rt <;>
        simp [areRequirementsSatisfied, h, ih]

theorem doesSolutionSatisfyAllClients_iff (rs : RequirementSet) (s : List Char) :
    doesSolutionSatisfyAllClients rs s = true ↔
      ∀ cr ∈ rs.map Prod.snd, areRequirementsSatisfied s cr = true := by
  induction rs with
  | nil => simp [doesSolutionSatisfyAllClients]
  | cons q t ih =>
      obtain ⟨k, cr⟩ := q
      by_cases h : areRequirementsSatisfied s cr <;>
        simp [doesSolutionSatisfyAllClients, h, ih]

/-! ### The scanned list -/

theorem scanList_perm (n : Nat) : (scanList n).Perm (allAssignments n) := by
  unfold scanList allAssignments
  have h := (jsSort_perm (sortPossibleSolutions '1')
      ((createPossibleSolutions n).map convertDecimalSolutionToBinary)).map
    (padPossibleSolution n '0')
  rw [List.map_map] at h
  exact h

theorem scanList_sorted (n : Nat) :
    (scanList n).Pairwise
      (fun a b => characterCount a '1' ≤ characterCount b '1') := by
  unfold scanList
  rw [List.pairwise_map]
  exact (jsSort_sorted '1' _).imp fun hab => by
    rw [characterCount_pad, characterCount_pad]
    exact hab

/-! ### Binary encoder lemmas -/

theorem binDigitsCore_fuel :
    ∀ n f1 f2 : Nat, n ≤ f1 → n ≤ f2 → binDigitsCore f1 n = binDigitsCore f2 n := by
  intro n
  induction n using Nat.strong_induction_on with
  | _ n ih =>
    intro f1 f2 h1 h2
    cases n with
    | zero => cases f1 <;> cases f2 <;> rfl
    | succ m =>
      cases f1 with
      | zero => omega
      | succ g1 =>
        cases f2 with
        | zero => omega
        | succ g2 =>
          show binDigitsCore g1 ((m + 1) / 2) ++ _ = binDigitsCore g2 ((m + 1) / 2) ++ _
          have hlt : (m + 1) / 2 < m + 1 := Nat.div_lt_self (Nat.succ_pos m) one_lt_two
          rw [ih ((m + 1) / 2) hlt g1 g2 (by omega) (by omega)]

theorem binDigitsCore_succ (m : Nat) :
    binDigitsCore (m + 1) (m + 1) =
      binDigitsCore ((m + 1) / 2) ((m + 1) / 2) ++
        [if (m + 1) % 2 = 1 then '1' else '0'] := by
  have hlt : (m + 1) / 2 < m + 1 := Nat.div_lt_self (Nat.succ_pos m) one_lt_two
  show binDigitsCore m ((m + 1) / 2) ++ _ = _
  rw [binDigitsCore_fuel ((m + 1) / 2) m ((m + 1) / 2) (by omega) (le_refl _)]

theorem parseBinary_foldl_binDigitsCore :
    ∀ n acc : Nat,
      List.foldl (fun acc c => 2 * acc + (if c = '1' then 1 else 0)) acc
          (binDigitsCore n n) =
        acc * 2 ^ (binDigitsCore n n).length + n := by
  intro n
  induction n using Nat.strong_induction_on with
  | _ n ih =>
    intro acc
    cases n with
    | zero => simp [binDigitsCore]
    | succ m =>
      have hlt : (m + 1) / 2 < m + 1 := Nat.div_lt_self (Nat.succ_pos m) one_lt_two
      rw [binDigitsCore_succ, List.foldl_append, ih ((m + 1) / 2) hlt acc,
        List.length_append]
      have hdm := Nat.div_add_mod (m + 1) 2
      rcases Nat.mod_two_eq_zero_or_one (m + 1) with hm | hm <;>
        · simp [hm, List.foldl, pow_succ]
          ring_nf
          omega

theorem parseBinary_convert (k : Nat) :
    parseBinary (convertDecimalSolutionToBinary k) = k := by
  unfold convertDecimalSolutionToBinary
  cases k with
  | zero => decide
  | succ m =>
      rw [if_neg (Nat.succ_ne_zero m)]
      unfold parseBinary
      rw [parseBinary_foldl_binDigitsCore (m + 1) 0]
      omega

theorem binDigitsCore_head (n : Nat) (hn : 0 < n) :
    (binDigitsCore n n).head? = some '1' := by
  induction n using Nat.strong_induction_on with
  | _ n ih =>
    cases n with
    | zero => omega
    | succ m =>
      rw [binDigitsCore_succ]
      by_cases hq : (m + 1) / 2 = 0
      · have hm : m = 0 := by omega
        subst hm
        rw [hq]
        decide
      · have hlt : (m + 1) / 2 < m + 1 := Nat.div_lt_self (Nat.succ_pos m) one_lt_two
        have hhead := ih ((m + 1) / 2) hlt (by omega)
        cases hq2 : binDigitsCore ((m + 1) / 2) ((m + 1) / 2) with
        | nil => rw [hq2] at hhead; simp at hhead
        | cons d rest =>
            rw [hq2] at hhead
            simp at hhead
            simp [hhead]

theorem binDigitsCore_mem (n : Nat) :
    ∀ c ∈ binDigitsCore n n, c = '0' ∨ c = '1' := by
  induction n using Nat.strong_induction_on with
  | _ n ih =>
    cases n with
    | zero => intro c hc; simp [binDigitsCore] at hc
    | succ m =>
      rw [binDigitsCore_succ]
      intro c hc
      rcases List.mem_append.mp hc with h | h
      · exact ih ((m + 1) / 2) (Nat.div_lt_self (Nat.succ_pos m) one_lt_two) c h
      · rcases List.mem_singleton.mp h with rfl
        by_cases hm : (m + 1) % 2 = 1 <;> simp [hm]

theorem binDigitsCore_length_le :
    ∀ n w : Nat, 1 ≤ w → n < 2 ^ w → (binDigitsCore n n).length ≤ w := by
  intro n
  induction n using Nat.strong_induction_on with
  | _ n ih =>
    intro w hw hn
    cases n with
    | zero => simp [binDigitsCore]
    | succ m =>
      rw [binDigitsCore_succ, List.length_append]
      have hlt : (m + 1) / 2 < m + 1 := Nat.div_lt_self (Nat.succ_pos m) one_lt_two
      have hq : (m + 1) / 2 < 2 ^ (w - 1) := by
        rw [Nat.div_lt_iff_lt_mul (by omega : 0 < 2)]
        have : 2 ^ (w - 1) * 2 = 2 ^ w := by
          rw [← pow_succ]
          congr 1
          omega
        omega
      by_cases hq0 : (m + 1) / 2 = 0
      · rw [hq0]
        simp [binDigitsCore]
        omega
      · have hw2 : 2 ≤ w := by
          by_contra hcon
          have hw1 : w = 1 := by omega
          subst hw1
          simp at hq
          omega
        have := ih ((m + 1) / 2) hlt (w - 1) (by omega) hq
        simp
        omega

theorem convert_length_le (k w : Nat) (hw : 1 ≤ w) (hk : k < 2 ^ w) :
    (convertDecimalSolutionToBinary k).length ≤ w := by
  unfold convertDecimalSolutionToBinary
  split
  · simpa using hw
  · exact binDigitsCore_length_le k w hw hk

theorem convert_mem (k : Nat) :
    ∀ c ∈ convertDecimalSolutionToBinary k, c = '0' ∨ c = '1' := by
  unfold convertDecimalSolutionToBinary
  split
  · intro c hc
    rcases List.mem_singleton.mp hc with rfl
    exact Or.inl rfl
  · exact binDigitsCore_mem k

theorem mem_allAssignments (n : Nat) (s : List Char) (hs : s ∈ allAssignments n) :
    ∃ k, k < 2 ^ n ∧
      s = padPossibleSolution n '0' (convertDecimalSolutionToBinary k) := by
  unfold allAssignments createPossibleSolutions at hs
  simp only [List.mem_map, List.mem_range] at hs
  obtain ⟨k, hk, rfl⟩ := hs
  exact ⟨k, hk, rfl⟩

theorem allAssignments_shape (n : Nat) (hn : 1 ≤ n) (s : List Char)
    (hs : s ∈ allAssignments n) :
    s.length = n ∧ ∀ c ∈ s, c = '0' ∨ c = '1' := by
  obtain ⟨k, hk, rfl⟩ := mem_allAssignments n s hs
  constructor
  · rw [padPossibleSolution_length]
    have := convert_length_le k n hn hk
    omega
  · intro c hc
    rcases padPossibleSolution_mem _ _ _ _ hc with rfl | h
    · exact Or.inl rfl
    · exact convert_mem k c h

theorem stringCharAt_eq_none (s : List Char) (pos : Int)
    (h : pos < 0 ∨ (s.length : Int) ≤ pos) : stringCharAt s pos = none := by
  unfold stringCharAt
  split
  · next hpos =>
      apply List.get?_eq_none.mpr
      omega
  · rfl

theorem areRequirementsSatisfied_skip (s : List Char) (pos : Int) (v : Char)
    (pre post : ClientRequirement) (h : stringCharAt s pos = none) :
    areRequirementsSatisfied s (pre ++ (pos, v) :: post) =
      areRequirementsSatisfied s (pre ++ post) := by
  induction pre with
  | nil => simp [areRequirementsSatisfied, h]
  | cons q t ih =>
      obtain ⟨ci, rt⟩ := q
      by_cases hq : stringCharAt s ci = some rt <;>
        simp [areRequirementsSatisfied, hq, ih]

theorem doesSolutionSatisfyAllClients_ext (rs1 rs2 : RequirementSet)
    (h : ∀ c : ClientRequirement, c ∈ rs1.map Prod.snd ↔ c ∈ rs2.map Prod.snd)
    (s : List Char) :
    doesSolutionSatisfyAllClients rs1 s = doesSolutionSatisfyAllClients rs2 s := by
  rw [Bool.eq_iff_iff, doesSolutionSatisfyAllClients_iff,
    doesSolutionSatisfyAllClients_iff]
  constructor <;> intro H c hc
  · exact H c ((h c).mpr hc)
  · exact H c ((h c).mp hc)

theorem optimizerFormat_foldl (sol acc : List Char) :
    sol.foldl (fun t e => t ++ [if e = '0' then 'G' else 'M', ' ']) acc =
      acc ++ sol.flatMap (fun c => [if c = '0' then 'G' else 'M', ' ']) := by
  induction sol generalizing acc with
  | nil => simp
  | cons c rest ih => simp [ih]

/-! ### Claims -/

/-- C1: `findCheapestSolution` returns an assignment iff some candidate in
the full `2^n` space satisfies every client requirement; a returned
assignment lies in that space, satisfies every client requirement, and has
minimal count of `'1'` digits among all satisfying candidates; when no
candidate satisfies all clients the result is the absence marker `none`. -/
theorem spec_c1 (n : Nat) (reqs : RequirementSet) :
    ((findCheapestSolution n reqs).isSome ↔
      ∃ s ∈ allAssignments n,
        ∀ cr ∈ reqs.map Prod.snd, areRequirementsSatisfied s cr = true)
    ∧ (findCheapestSolution n reqs = none ↔
      ∀ s ∈ allAssignments n,
        ¬ ∀ cr ∈ reqs.map Prod.snd, areRequirementsSatisfied s cr = true)
    ∧ ∀ a, findCheapestSolution n reqs = some a →
        a ∈ allAssignments n
        ∧ (∀ cr ∈ reqs.map Prod.snd, areRequirementsSatisfied a cr = true)
        ∧ ∀ s ∈ allAssignments n,
            (∀ cr ∈ reqs.map Prod.snd, areRequirementsSatisfied s cr = true) →
            characterCount a '1' ≤ characterCount s '1' := by
  have hperm := scanList_perm n
  have hnone : findCheapestSolution n reqs = none ↔
      ∀ s ∈ allAssignments n,
        ¬ ∀ cr ∈ reqs.map Prod.snd, areRequirementsSatisfied s cr = true := by
    unfold findCheapestSolution
    rw [List.find?_eq_none]
    constructor
    · intro H s hs hsat
      exact H s (hperm.mem_iff.mpr hs)
        ((doesSolutionSatisfyAllClients_iff reqs s).mpr hsat)
    · intro H x hx hsat
      exact H x (hperm.mem_iff.mp hx)
        ((doesSolutionSatisfyAllClients_iff reqs x).mp hsat)
  have hsome : ∀ a, findCheapestSolution n reqs = some a →
      a ∈ allAssignments n
      ∧ (∀ cr ∈ reqs.map Prod.snd, areRequirementsSatisfied a cr = true)
      ∧ ∀ s ∈ allAssignments n,
          (∀ cr ∈ reqs.map Prod.snd, areRequirementsSatisfied s cr = true) →
          characterCount a '1' ≤ characterCount s '1' := by
    intro a ha
    have ha' : (scanList n).find? (doesSolutionSatisfyAllClients reqs) = some a := ha
    have hpa := List.find?_some ha'
    have hmem := List.mem_of_find?_eq_some ha'
    refine ⟨hperm.mem_iff.mp hmem,
      (doesSolutionSatisfyAllClients_iff reqs a).mp hpa, ?_⟩
    intro s hs hsat
    exact find?_min_of_sorted (fun t => characterCount t '1') _ (scanList n)
      (scanList_sorted n) a ha' s (hperm.mem_iff.mpr hs)
      ((doesSolutionSatisfyAllClients_iff reqs s).mpr hsat)
  refine ⟨?_, hnone, hsome⟩
  rw [Option.isSome_iff_exists]
  constructor
  · rintro ⟨a, ha⟩
    exact ⟨a, (hsome a ha).1, (hsome a ha).2.1⟩
  · rintro ⟨s, hs, hsat⟩
    cases hf : findCheapestSolution n reqs with
    | some a => exact ⟨a, rfl⟩
    | none => exact absurd hsat (hnone.mp hf s hs)

/-- Witness for C1 at n = 1 with one client demanding color 0 expensive. -/
theorem spec_c1_witness :
    ['1'] ∈ allAssignments 1
    ∧ (∀ cr ∈ ([(0, [((0 : Int), '1')])] : RequirementSet).map Prod.snd,
        areRequirementsSatisfied ['1'] cr = true)
    ∧ ∀ s ∈ allAssignments 1,
        (∀ cr ∈ ([(0, [((0 : Int), '1')])] : RequirementSet).map Prod.snd,
          areRequirementsSatisfied s cr = true) →
        characterCount ['1'] '1' ≤ characterCount s '1' :=
  (spec_c1 1 [(0, [((0 : Int), '1')])]).2.2 ['1'] (by decide)

/-- C2: the requirement satisfier returns true iff at least one pair's
requested type equals the assignment's character at the pair's column
index, and returns false on an empty requirement collection. -/
theorem spec_c2 (s : List Char) (reqs : ClientRequirement) :
    (areRequirementsSatisfied s reqs = true ↔
      ∃ p ∈ reqs, stringCharAt s p.1 = some p.2)
    ∧ areRequirementsSatisfied s [] = false :=
  ⟨areRequirementsSatisfied_iff s reqs, rfl⟩

/-- C3: the stable sort with the cost-ranker comparator permutes its input,
orders it ascending by count of the target digit, keeps equal-count entries
in input order (the filter at any fixed count is unchanged), and sends the
spec's nine-element example to its expected output. -/
theorem spec_c3 :
    jsSort (sortPossibleSolutions '1')
        [['0'], ['1'], ['1', '0'], ['1', '1'], ['1', '0', '0'],
          ['1', '0', '1'], ['1', '1', '0'], ['1', '1', '1'],
          ['1', '0', '0', '0']] =
      [['0'], ['1'], ['1', '0'], ['1', '0', '0'], ['1', '0', '0', '0'],
        ['1', '1'], ['1', '0', '1'], ['1', '1', '0'], ['1', '1', '1']]
    ∧ (∀ c l, (jsSort (sortPossibleSolutions c) l).Perm l)
    ∧ (∀ c l, (jsSort (sortPossibleSolutions c) l).Pairwise
        (fun a b => characterCount a c ≤ characterCount b c))
    ∧ ∀ c k l, (jsSort (sortPossibleSolutions c) l).filter
          (fun s => characterCount s c == k) =
        l.filter (fun s => characterCount s c == k) :=
  ⟨by decide, fun _ l => jsSort_perm _ l, jsSort_sorted,
    fun c k l => jsSort_filter c k l⟩

/-- C4: a requirement set containing a client with zero pairs is
unsatisfiable, so `findCheapestSolution` returns the absence marker. -/
theorem spec_c4 (n : Nat) (reqs : RequirementSet) (k : Nat)
    (h : (k, ([] : ClientRequirement)) ∈ reqs) :
    findCheapestSolution n reqs = none := by
  have hempty : ([] : ClientRequirement) ∈ reqs.map Prod.snd :=
    List.mem_map.mpr ⟨(k, []), h, rfl⟩
  unfold findCheapestSolution
  rw [List.find?_eq_none]
  intro x hx hsat
  have hcontra := (doesSolutionSatisfyAllClients_iff reqs x).mp hsat [] hempty
  simp [areRequirementsSatisfied] at hcontra

/-- Witness for C4 with one empty client at n = 1. -/
theorem spec_c4_witness :
    findCheapestSolution 1 [(0, ([] : ClientRequirement))] = none :=
  spec_c4 1 [(0, [])] 0 (by decide)

/-- C5: a requirement pair whose column index lies outside the assignment's
index range yields no character when indexing (total, not an error) and the
satisfier returns the same result as with the pair removed. -/
theorem spec_c5 (s : List Char) (pos : Int) (v : Char)
    (pre post : ClientRequirement)
    (h : pos < 0 ∨ (s.length : Int) ≤ pos) :
    stringCharAt s pos = none
    ∧ areRequirementsSatisfied s (pre ++ (pos, v) :: post) =
        areRequirementsSatisfied s (pre ++ post) := by
  have hn := stringCharAt_eq_none s pos h
  exact ⟨hn, areRequirementsSatisfied_skip s pos v pre post hn⟩

/-- Witness for C5 with a width-2 assignment and out-of-range index 5. -/
theorem spec_c5_witness :
    stringCharAt ['0', '1'] 5 = none
    ∧ areRequirementsSatisfied ['0', '1']
          ([((0 : Int), '1')] ++ ((5 : Int), '1') :: [((1 : Int), '1')]) =
        areRequirementsSatisfied ['0', '1']
          ([((0 : Int), '1')] ++ [((1 : Int), '1')]) :=
  spec_c5 ['0', '1'] 5 '1' [((0 : Int), '1')] [((1 : Int), '1')] (by decide)

/-- C6: the binary encoder produces the standard base-2 digit string with
no leading zeros (0 encodes as "0", 5 as "101", every digit is '0' or '1',
and the leading digit of a positive number is '1'), and parsing the result
back as base 2 recovers the input. -/
theorem spec_c6 :
    convertDecimalSolutionToBinary 0 = ['0']
    ∧ convertDecimalSolutionToBinary 5 = ['1', '0', '1']
    ∧ (∀ k, parseBinary (convertDecimalSolutionToBinary k) = k)
    ∧ (∀ k, ∀ c ∈ convertDecimalSolutionToBinary k, c = '0' ∨ c = '1')
    ∧ ∀ k, 0 < k → (convertDecimalSolutionToBinary k).head? = some '1' := by
  refine ⟨by decide, by decide, parseBinary_convert, convert_mem, ?_⟩
  intro k hk
  unfold convertDecimalSolutionToBinary
  rw [if_neg (by omega)]
  exact binDigitsCore_head k hk

/-- Witness for C6 at k = 5. -/
theorem spec_c6_witness :
    parseBinary (convertDecimalSolutionToBinary 5) = 5
    ∧ (convertDecimalSolutionToBinary 5).head? = some '1'
    ∧ ('1' = '0' ∨ '1' = '1') :=
  ⟨spec_c6.2.2.1 5, spec_c6.2.2.2.2 5 (by decide),
    spec_c6.2.2.2.1 5 '1' (by decide)⟩

/-- C7: requirement sets with the same collection of client requirement
values, regardless of keys, order, or duplication, give the same result. -/
theorem spec_c7 (n : Nat) (rs1 rs2 : RequirementSet)
    (h : ∀ c : ClientRequirement, c ∈ rs1.map Prod.snd ↔ c ∈ rs2.map Prod.snd) :
    findCheapestSolution n rs1 = findCheapestSolution n rs2 := by
  unfold findCheapestSolution
  rw [funext (doesSolutionSatisfyAllClients_ext rs1 rs2 h)]

/-- Witness for C7: same two client requirement values under different
keys, in a different order, with one duplicated. -/
theorem spec_c7_witness :
    findCheapestSolution 2 [(0, [((0 : Int), '1')]), (1, [((1 : Int), '0')])] =
      findCheapestSolution 2
        [(5, [((1 : Int), '0')]), (7, [((0 : Int), '1')]),
          (9, [((0 : Int), '1')])] :=
  spec_c7 2 _ _ (by intro c; simp [List.mem_cons]; tauto)

/-- C8: the formatting step renders an absent solution as the literal
"No solution exists" and a present assignment by mapping '0' to 'G' and
any other digit to 'M', each letter followed by one space. -/
theorem spec_c8 :
    optimizerFormat none = "No solution exists".toList
    ∧ optimizerFormat (some ['0', '0', '0', '0', '1']) = "G G G G M ".toList
    ∧ ∀ sol, optimizerFormat (some sol) =
        sol.flatMap (fun c => [if c = '0' then 'G' else 'M', ' ']) := by
  refine ⟨rfl, by decide, ?_⟩
  intro sol
  show sol.foldl _ [] = _
  rw [optimizerFormat_foldl]
  simp

/-- C9: for n ≥ 1 every scanned candidate (hence any returned assignment)
is a string of exactly n characters drawn from '0' and '1'; for n = 0 the
single candidate is the one-character string "0", so a returned solution
has length 1. -/
theorem spec_c9 :
    (∀ n, 1 ≤ n → ∀ s ∈ scanList n, s.length = n ∧ ∀ c ∈ s, c = '0' ∨ c = '1')
    ∧ scanList 0 = [['0']]
    ∧ (∀ n reqs a, 1 ≤ n → findCheapestSolution n reqs = some a →
        a.length = n ∧ ∀ c ∈ a, c = '0' ∨ c = '1')
    ∧ ∀ reqs a, findCheapestSolution 0 reqs = some a → a.length = 1 := by
  have hshape : ∀ n, 1 ≤ n → ∀ s ∈ scanList n,
      s.length = n ∧ ∀ c ∈ s, c = '0' ∨ c = '1' := by
    intro n hn s hs
    exact allAssignments_shape n hn s ((scanList_perm n).mem_iff.mp hs)
  refine ⟨hshape, by decide, ?_, ?_⟩
  · intro n reqs a hn ha
    have ha' : (scanList n).find? (doesSolutionSatisfyAllClients reqs) = some a := ha
    exact hshape n hn a (List.mem_of_find?_eq_some ha')
  · intro reqs a ha
    have ha' : (scanList 0).find? (doesSolutionSatisfyAllClients reqs) = some a := ha
    have hmem := List.mem_of_find?_eq_some ha'
    have h0 : scanList 0 = [['0']] := by decide
    rw [h0] at hmem
    rcases List.mem_singleton.mp hmem with rfl
    rfl

/-- Witness for C9 at n = 1. -/
theorem spec_c9_witness :
    (['1'] : List Char).length = 1
    ∧ ∀ c ∈ (['1'] : List Char), c = '0' ∨ c = '1' :=
  spec_c9.2.2.1 1 [(0, [((0 : Int), '1')])] ['1'] (by decide) (by decide)

/-- C10 counterexample: when the ColorCount line is duplicated as a later
line, the post-call array still contains an element equal to the ColorCount
line, refuting "no longer contains the ColorCount line". -/
theorem spec_c10_counterexample :
    (parseFileInput [['5'], ['5']]).2 = [['5']]
    ∧ ['5'] ∈ (parseFileInput [['5'], ['5']]).2 := by
  exact ⟨rfl, by decide⟩

/-- C10 as amended: on a nonempty array, `parseFileInput` leaves exactly
the original tail (one element shorter, not equal to the original array),
removing the ColorCount line from the front, though an equal duplicate may
remain later; an empty array is left unchanged. -/
theorem spec_c10_amended (x : List Char) (rest : List (List Char)) :
    (parseFileInput (x :: rest)).2 = rest
    ∧ ((parseFileInput (x :: rest)).2).length + 1 = (x :: rest).length
    ∧ (parseFileInput (x :: rest)).2 ≠ x :: rest
    ∧ (parseFileInput ([] : List (List Char))).2 = [] := by
  refine ⟨rfl, ?_, ?_, rfl⟩
  · show rest.length + 1 = (x :: rest).length
    simp
  · show rest ≠ x :: rest
    intro hcon
    have hlen := congrArg List.length hcon
    simp at hlen

end PaintOptimizer
